import Mathlib

/-!
Verification development for the Binviz repository (src/src/lib.rs, src/src/main.rs).

Shallow embedding conventions:
* Rust `u8` / `usize` values are modelled as `Nat` (counts never overflow in the
  scenarios the specification quantifies over, and byte values are `Nat`s below 256).
* `Vec<u8>` buffers and `Vec<u8>` histogram keys are `List Nat`.
* `BTreeMap<Vec<u8>, usize>` is modelled as an association list
  `List (List Nat × Nat)` kept sorted by the strict lexicographic key order
  `keyLtb` (the `Ord` instance of `Vec<u8>`), exactly the iteration order of the
  B-tree.  Insertion (`hinsert`) mirrors `entry(..).and_modify(|x| *x += 1).or_insert(1)`.
* `f64` arithmetic is modelled exactly: by `ℚ` where the source only performs
  field operations on integer inputs (the rasterizers), and by `ℝ` where `log2`
  is involved (the entropy calculator).  The one place where an IEEE special
  value is observable — `0.0 / 0.0 = NaN` when `generate_image` divides
  `total` by a zero key count — is modelled by an `Option ℚ` result, `none`
  standing for NaN.  The cast `as u16` of a nonnegative finite `f64` is
  truncation saturated at 65535 (`u16sat`).
* Rust panics (`.expect`, aborting the process) are modelled by `Option`/early
  return: a function that can panic returns `none`, and the batch driver
  `full_analysis` stops producing results at the first panic.
* The file system is an abstract map `fs : Nat → Option (List Nat)` from file
  names to contents; `none` means the file cannot be opened or fully read.
-/

/-- Strict lexicographic order on byte-sequence keys, the `Ord` used by
`BTreeMap<Vec<u8>, usize>`: a strict prefix is smaller, otherwise the first
differing byte decides. -/
def keyLtb : List Nat → List Nat → Bool
  | [], [] => false
  | [], _ :: _ => true
  | _ :: _, [] => false
  | a :: as, b :: bs => if a < b then true else if b < a then false else keyLtb as bs

/-- A histogram is well formed when its entries are strictly increasing in the
key order; this is the `BTreeMap` invariant and makes keys unique. -/
def HistSorted (h : List (List Nat × Nat)) : Prop :=
  h.Pairwise (fun a b => keyLtb a.1 b.1 = true)

/-- Lookup of the count stored for a key; 0 when the key is absent. -/
def hlookup (k : List Nat) : List (List Nat × Nat) → Nat
  | [] => 0
  | (k', c) :: rest => if k = k' then c else hlookup k rest

/-- One `histogram.entry(key).and_modify(|x| *x += 1).or_insert(1)` step of
`calculate_histogram` (lib.rs lines 26-31), on the sorted association list. -/
def hinsert (k : List Nat) : List (List Nat × Nat) → List (List Nat × Nat)
  | [] => [(k, 1)]
  | (k', c) :: rest =>
    if keyLtb k k' then (k, 1) :: (k', c) :: rest
    else if k = k' then (k', c + 1) :: rest
    else (k', c) :: hinsert k rest

/-- The sliding windows `buf.windows(dimension)` of lib.rs line 26: all
contiguous sub-buffers of length `n`, in buffer order.  (Rust panics for
`n = 0`; every statement below assumes `1 ≤ n`.) -/
def windows (buf : List Nat) (n : Nat) : List (List Nat) :=
  (List.range (buf.length + 1 - n)).map fun i => (buf.drop i).take n

/-- The counting loop of `calculate_histogram` (lib.rs lines 26-31) applied to
an in-memory buffer: fold every window into the histogram. -/
def calculate_histogram_buf (buf : List Nat) (dimension : Nat) : List (List Nat × Nat) :=
  (windows buf dimension).foldl (fun h w => hinsert w h) []

/-- `calculate_histogram` (lib.rs lines 16-33): opens and reads the file itself
(`File::open(..).expect(..)`, `read_to_end(..).expect(..)`), then counts the
windows.  A file the file system cannot deliver makes the Rust code panic,
modelled by `none`. -/
def calculate_histogram (fs : Nat → Option (List Nat)) (file : Nat)
    (dimension : Nat) : Option (List (List Nat × Nat)) :=
  (fs file).map fun buf => calculate_histogram_buf buf dimension

/-- Sum of all stored counts (`histogram.values().sum()`). -/
def histTotal (h : List (List Nat × Nat)) : Nat :=
  (h.map (·.2)).sum

/-- `calculate_entropy` (lib.rs lines 35-38): `probability.log2() * probability`,
with `f64` modelled by `ℝ`. -/
noncomputable def calculate_entropy (probability : ℝ) : ℝ :=
  Real.logb 2 probability * probability

/-- `calculate_entropy_histogram` (lib.rs lines 41-51): sum the per-key terms
`calculate_entropy (freq / total)` and negate. -/
noncomputable def calculate_entropy_histogram (histogram : List (List Nat × Nat)) : ℝ :=
  -((histogram.map fun kc =>
      calculate_entropy ((kc.2 : ℝ) / (histTotal histogram : ℝ))).sum)

/-- One insertion step of a stable sort by descending count: the new element
goes before the first element whose count is not larger.  Rust `sort_by`
(lib.rs line 55, comparator `y.1.cmp(x.1)`) is a stable sort; a stable sort is
extensionally unique, so insertion sort with this placement computes the same
list. -/
def insertDesc (x : List Nat × Nat) : List (List Nat × Nat) → List (List Nat × Nat)
  | [] => [x]
  | y :: ys => if y.2 ≤ x.2 then x :: y :: ys else y :: insertDesc x ys

/-- Stable sort by descending count, processing the input left to right. -/
def sortDesc : List (List Nat × Nat) → List (List Nat × Nat)
  | [] => []
  | x :: xs => insertDesc x (sortDesc xs)

/-- `get_most_frequent_bytes` (lib.rs lines 53-57): collect the histogram
entries (already in ascending key order) and stably sort them by descending
count.  The function takes no other parameter. -/
def get_most_frequent_bytes (histogram : List (List Nat × Nat)) :
    List (List Nat × Nat) :=
  sortDesc histogram

/-- Frequency-ranking interface as worded in spec §4.3: an optional `count`
parameter `k` truncates the ranking to the top `k` entries and an absent `k`
returns the whole ranking.  Stated only to compare the spec interface with the
source function, which has no such parameter. -/
def rank_frequencies_spec (histogram : List (List Nat × Nat)) :
    Option Nat → List (List Nat × Nat)
  | some k => (get_most_frequent_bytes histogram).take k
  | none => get_most_frequent_bytes histogram

/-- Saturating truncation of a nonnegative value to a `u16` channel value: the
Rust cast `brightness as u16` truncates toward zero and clamps into
`0..=65535`. -/
def u16sat (x : ℚ) : Nat :=
  min 65535 ⌊x⌋₊

/-- `image.put_pixel x y v` on an image modelled as a total pixel function. -/
def putPixel (image : Nat × Nat → Nat) (x y v : Nat) : Nat × Nat → Nat :=
  fun p => if p = (x, y) then v else image p

/-- `generate_image` (lib.rs lines 99-115): a 256×256 `Luma<u16>` raster, the
total count, and the average count per observed key.  `avg_total` is
`total as f64 / len as f64`; for the empty histogram this is `0.0 / 0.0`,
IEEE NaN, modelled as `none`.  Every observed key `[x, y]` receives brightness
`freq / avg_total * 65535` cast with `as u16`. -/
def generate_image (dihistogram : List (List Nat × Nat)) :
    (Nat × Nat → Nat) × Nat × Option ℚ :=
  let len := dihistogram.length
  let total := histTotal dihistogram
  let avg : ℚ := (total : ℚ) / (len : ℚ)
  let image := dihistogram.foldl
    (fun image kc =>
      putPixel image (kc.1.headD 0) (kc.1.tail.headD 0)
        (u16sat ((kc.2 : ℚ) / avg * 65535)))
    (fun _ => 0)
  (image, total, if len = 0 then none else some avg)

/-- `generate_color_image` (lib.rs lines 123-142): a 256×256 `Rgb<u16>` raster
(channel triple (red, green, blue)), the total count and the average count.
For each observed key `[x, y, z]` the written pixel is
`Rgb([z * 65535 / 255, 0, freq * 65535 / avg])` — the source writes the literal
`0` as the middle (green) channel. -/
def generate_color_image (trihistogram : List (List Nat × Nat)) :
    (Nat × Nat → Nat × Nat × Nat) × Nat × Option ℚ :=
  let len := trihistogram.length
  let total := histTotal trihistogram
  let avg : ℚ := (total : ℚ) / (len : ℚ)
  let image := trihistogram.foldl
    (fun image kc =>
      let brightness_2 := u16sat ((kc.2 : ℚ) * 65535 / avg)
      let brightness_1 := u16sat ((kc.1.getD 2 0 : ℚ) * 65535 / 255)
      fun p => if p = (kc.1.headD 0, kc.1.tail.headD 0)
        then (brightness_1, 0, brightness_2) else image p)
    (fun _ => (0, 0, 0))
  (image, total, if len = 0 then none else some avg)

/-- Data of one row of `display_entropies` (lib.rs lines 59-77): for each
dimension `i` in `1..=count`, the entropy of the dimension-`i` histogram and
the relative entropy `entropy / (8 * i)`.  The table formatting itself is
external presentation.  Reading the file can panic, modelled by `none`. -/
noncomputable def display_entropies (fs : Nat → Option (List Nat)) (file : Nat)
    (count : Nat) : Option (List (Nat × ℝ × ℝ)) :=
  (fs file).map fun buf =>
    (List.range count).map fun j =>
      let i := j + 1
      let e := calculate_entropy_histogram (calculate_histogram_buf buf i)
      (i, e, e / (8 * i))

/-- The per-file artifacts produced by `full_analysis`: the entropy table data
(dimensions 1..=3), the frequency ranking, and the pair raster with its
diagnostics. -/
noncomputable def analyze_file (buf : List Nat) :
    List (Nat × ℝ × ℝ) × List (List Nat × Nat) ×
      ((Nat × Nat → Nat) × Nat × Option ℚ) :=
  ((List.range 3).map fun j =>
      let i := j + 1
      let e := calculate_entropy_histogram (calculate_histogram_buf buf i)
      (i, e, e / (8 * i)),
   get_most_frequent_bytes (calculate_histogram_buf buf 1),
   generate_image (calculate_histogram_buf buf 2))

/-- `full_analysis` (lib.rs lines 145-187): process the files in order; every
step reads the current file through `calculate_histogram`, whose `.expect`
panics abort the whole process, so an unreadable file ends the batch and no
later file is analyzed.  The result lists the files that were fully analyzed,
with their artifacts. -/
noncomputable def full_analysis (fs : Nat → Option (List Nat)) :
    List Nat → List (Nat × (List (Nat × ℝ × ℝ) × List (List Nat × Nat) ×
      ((Nat × Nat → Nat) × Nat × Option ℚ)))
  | [] => []
  | f :: rest =>
    match fs f with
    | none => []
    | some buf => (f, analyze_file buf) :: full_analysis fs rest

example : calculate_histogram_buf [0, 0, 1, 1, 2, 2] 2 =
    [([0, 0], 1), ([0, 1], 1), ([1, 1], 1), ([1, 2], 1), ([2, 2], 1)] := by decide
example : calculate_histogram_buf [7, 7, 7, 7, 7] 1 = [([7], 5)] := by decide
example : get_most_frequent_bytes [([0], 1), ([1], 2)] = [([1], 2), ([0], 1)] := by decide
example : calculate_histogram_buf [0, 1] 3 = [] := by decide

theorem keyLtb_irrefl (k : List Nat) : keyLtb k k = false := by
  induction k with
  | nil => rfl
  | cons a as ih => simp [keyLtb, ih]

theorem ne_of_keyLtb {a b : List Nat} (h : keyLtb a b = true) : a ≠ b := by
  intro hab
  subst hab
  rw [keyLtb_irrefl] at h
  cases h

theorem keyLtb_cons {a b : Nat} {as bs : List Nat} :
    keyLtb (a :: as) (b :: bs) = true ↔ a < b ∨ (a = b ∧ keyLtb as bs = true) := by
  by_cases h1 : a < b
  · simp [keyLtb, h1]
  · by_cases h2 : b < a
    · have ha : ¬ a = b := by omega
      simp [keyLtb, h1, h2, ha]
    · have ha : a = b := by omega
      subst ha
      simp [keyLtb, h1, h2]

theorem keyLtb_trans (a : List Nat) :
    ∀ b c, keyLtb a b = true → keyLtb b c = true → keyLtb a c = true := by
  induction a with
  | nil =>
    intro b c h1 h2
    cases b with
    | nil => simp [keyLtb] at h1
    | cons y ys =>
      cases c with
      | nil => simp [keyLtb] at h2
      | cons z zs => simp [keyLtb]
  | cons x xs ih =>
    intro b c h1 h2
    cases b with
    | nil => simp [keyLtb] at h1
    | cons y ys =>
      cases c with
      | nil => simp [keyLtb] at h2
      | cons z zs =>
        rw [keyLtb_cons] at h1 h2 ⊢
        rcases h1 with h1 | ⟨rfl, h1⟩
        · rcases h2 with h2 | ⟨rfl, h2⟩
          · exact Or.inl (h1.trans h2)
          · exact Or.inl h1
        · rcases h2 with h2 | ⟨rfl, h2⟩
          · exact Or.inl h2
          · exact Or.inr ⟨rfl, ih ys zs h1 h2⟩

theorem keyLtb_connex (a : List Nat) :
    ∀ b, a ≠ b → keyLtb a b = true ∨ keyLtb b a = true := by
  induction a with
  | nil =>
    intro b hne
    cases b with
    | nil => exact absurd rfl hne
    | cons y ys => exact Or.inl (by simp [keyLtb])
  | cons x xs ih =>
    intro b hne
    cases b with
    | nil => exact Or.inr (by simp [keyLtb])
    | cons y ys =>
      by_cases hxy : x < y
      · exact Or.inl (keyLtb_cons.mpr (Or.inl hxy))
      · by_cases hyx : y < x
        · exact Or.inr (keyLtb_cons.mpr (Or.inl hyx))
        · have hx : x = y := by omega
          subst hx
          have hts : xs ≠ ys := fun h => hne (by rw [h])
          rcases ih ys hts with h | h
          · exact Or.inl (keyLtb_cons.mpr (Or.inr ⟨rfl, h⟩))
          · exact Or.inr (keyLtb_cons.mpr (Or.inr ⟨rfl, h⟩))

theorem histTotal_hinsert (w : List Nat) (h : List (List Nat × Nat)) :
    histTotal (hinsert w h) = histTotal h + 1 := by
  induction h with
  | nil => simp [hinsert, histTotal]
  | cons kc rest ih =>
    obtain ⟨k', c⟩ := kc
    by_cases h1 : keyLtb w k'
    · simp [hinsert, h1, histTotal]
      omega
    · by_cases h2 : w = k'
      · subst h2
        simp [hinsert, keyLtb_irrefl, histTotal]
        omega
      · simp [hinsert, h1, h2, histTotal] at ih ⊢
        omega

theorem hinsert_key_mem (w : List Nat) (h : List (List Nat × Nat)) :
    ∀ z ∈ hinsert w h, z.1 = w ∨ z.1 ∈ h.map Prod.fst := by
  induction h with
  | nil =>
    intro z hz
    simp [hinsert] at hz
    simp [hz]
  | cons kc rest ih =>
    obtain ⟨k', c⟩ := kc
    intro z hz
    by_cases h1 : keyLtb w k'
    · simp only [hinsert, if_pos h1, List.mem_cons] at hz
      rcases hz with rfl | rfl | hz
      · simp
      · simp
      · simp only [List.map_cons, List.mem_cons]
        right
        right
        exact List.mem_map_of_mem Prod.fst hz
    · by_cases h2 : w = k'
      · simp only [hinsert, if_neg h1, if_pos h2, List.mem_cons] at hz
        rcases hz with rfl | hz
        · simp [h2]
        · simp only [List.map_cons, List.mem_cons]
          exact Or.inr (Or.inr (List.mem_map_of_mem Prod.fst hz))
      · simp only [hinsert, if_neg h1, if_neg h2, List.mem_cons] at hz
        rcases hz with rfl | hz
        · simp
        · rcases ih z hz with h | h
          · exact Or.inl h
          · simp only [List.map_cons, List.mem_cons]
            exact Or.inr (Or.inr h)

theorem hinsert_sorted (w : List Nat) (h : List (List Nat × Nat))
    (hs : HistSorted h) : HistSorted (hinsert w h) := by
  induction h with
  | nil => simp [hinsert, HistSorted]
  | cons kc rest ih =>
    obtain ⟨k', c⟩ := kc
    rw [HistSorted, List.pairwise_cons] at hs
    obtain ⟨hhead, htail⟩ := hs
    by_cases h1 : keyLtb w k'
    · rw [HistSorted]
      simp only [hinsert, if_pos h1]
      rw [List.pairwise_cons]
      refine ⟨?_, List.Pairwise.cons hhead htail⟩
      intro y hy
      rcases List.mem_cons.mp hy with rfl | hy
      · exact h1
      · exact keyLtb_trans w k' y.1 h1 (hhead y hy)
    · by_cases h2 : w = k'
      · rw [HistSorted]
        simp only [hinsert, if_neg h1, if_pos h2]
        rw [List.pairwise_cons]
        exact ⟨fun y hy => hhead y hy, htail⟩
      · rw [HistSorted]
        simp only [hinsert, if_neg h1, if_neg h2]
        rw [List.pairwise_cons]
        refine ⟨?_, ih htail⟩
        intro y hy
        rcases hinsert_key_mem w rest y hy with hyw | hyk
        · rw [hyw]
          rcases keyLtb_connex w k' h2 with hc | hc
          · exact absurd hc h1
          · exact hc
        · rcases List.mem_map.mp hyk with ⟨z, hz, hzy⟩
          rw [← hzy]
          exact hhead z hz

theorem hlookup_eq_zero_of_forall_ne {k : List Nat} {h : List (List Nat × Nat)}
    (hne : ∀ kc ∈ h, k ≠ kc.1) : hlookup k h = 0 := by
  induction h with
  | nil => rfl
  | cons kc rest ih =>
    obtain ⟨k', c⟩ := kc
    have hk : k ≠ k' := hne (k', c) (List.mem_cons_self _ _)
    simp only [hlookup, if_neg hk]
    exact ih fun z hz => hne z (List.mem_cons_of_mem _ hz)

theorem hlookup_eq_zero_of_lt_head {k k' : List Nat} {c : Nat}
    {rest : List (List Nat × Nat)} (hs : HistSorted ((k', c) :: rest))
    (hlt : keyLtb k k' = true) : hlookup k ((k', c) :: rest) = 0 := by
  rw [HistSorted, List.pairwise_cons] at hs
  apply hlookup_eq_zero_of_forall_ne
  intro kc hkc
  rcases List.mem_cons.mp hkc with rfl | hkc
  · exact ne_of_keyLtb hlt
  · exact ne_of_keyLtb (keyLtb_trans k k' kc.1 hlt (hs.1 kc hkc))

theorem hlookup_hinsert (w k : List Nat) (h : List (List Nat × Nat))
    (hs : HistSorted h) :
    hlookup k (hinsert w h) = hlookup k h + (if k = w then 1 else 0) := by
  induction h with
  | nil => by_cases hkw : k = w <;> simp [hinsert, hlookup, hkw]
  | cons kc rest ih =>
    obtain ⟨k', c⟩ := kc
    have hs' := hs
    rw [HistSorted, List.pairwise_cons] at hs'
    obtain ⟨hhead, htail⟩ := hs'
    by_cases h1 : keyLtb w k'
    · simp only [hinsert, if_pos h1]
      by_cases hkw : k = w
      · subst hkw
        have h0 : hlookup k ((k', c) :: rest) = 0 :=
          hlookup_eq_zero_of_lt_head hs h1
        rw [h0]
        simp [hlookup]
      · simp [hlookup, hkw]
    · by_cases h2 : w = k'
      · subst h2
        simp only [hinsert, if_neg h1, if_pos rfl]
        by_cases hkw : k = w
        · subst hkw
          simp [hlookup]
        · simp [hlookup, hkw]
      · simp only [hinsert, if_neg h1, if_neg h2]
        by_cases hkk : k = k'
        · subst hkk
          have hkw : ¬ k = w := fun hh => h2 hh.symm
          simp [hlookup, hkw]
        · simp only [hlookup, if_neg hkk]
          exact ih htail

theorem hlookup_foldl (l : List (List Nat)) :
    ∀ h : List (List Nat × Nat), HistSorted h →
      HistSorted (l.foldl (fun h w => hinsert w h) h) ∧
      ∀ k, hlookup k (l.foldl (fun h w => hinsert w h) h) =
        hlookup k h + l.count k := by
  induction l with
  | nil =>
    intro h hs
    exact ⟨hs, fun k => by simp⟩
  | cons w ws ih =>
    intro h hs
    have hs' : HistSorted (hinsert w h) := hinsert_sorted w h hs
    obtain ⟨ihs, ihl⟩ := ih (hinsert w h) hs'
    refine ⟨by simpa using ihs, fun k => ?_⟩
    have hil := ihl k
    have hins := hlookup_hinsert w k h hs
    simp only [List.foldl_cons]
    rw [hil, hins]
    by_cases hkw : k = w
    · subst hkw
      simp [List.count_cons]
      omega
    · have hwk : ¬ w = k := fun hh => hkw hh.symm
      simp [List.count_cons, hkw, hwk]

theorem histTotal_foldl (l : List (List Nat)) :
    ∀ h, histTotal (l.foldl (fun h w => hinsert w h) h) =
      histTotal h + l.length := by
  induction l with
  | nil => intro h; simp
  | cons w ws ih =>
    intro h
    simp only [List.foldl_cons, List.length_cons]
    rw [ih, histTotal_hinsert]
    omega

/-- C4: for every byte buffer `B` and window length `n ≥ 1`, the histogram
built over `B` maps each length-`n` window to its exact occurrence count
(and unobserved keys to 0), the counts sum to `max 0 (len B - n + 1)`, and a
buffer shorter than `n` yields the empty histogram rather than an error. -/
theorem calculate_histogram_buf_correct (buf : List Nat) (n : Nat) (hn : 1 ≤ n) :
    (∀ k, hlookup k (calculate_histogram_buf buf n) = (windows buf n).count k) ∧
    ((histTotal (calculate_histogram_buf buf n) : Int) =
      max 0 ((buf.length : Int) - (n : Int) + 1)) ∧
    (buf.length < n → calculate_histogram_buf buf n = []) := by
  refine ⟨fun k => ?_, ?_, fun hlt => ?_⟩
  · have h := (hlookup_foldl (windows buf n) []
      (by simp [HistSorted])).2 k
    simpa [calculate_histogram_buf, hlookup] using h
  · have h1 : histTotal (calculate_histogram_buf buf n) = (windows buf n).length := by
      have h := histTotal_foldl (windows buf n) []
      simpa [calculate_histogram_buf, histTotal] using h
    rw [h1]
    have h2 : (windows buf n).length = buf.length + 1 - n := by
      simp [windows]
    rw [h2]
    by_cases hc : (0 : Int) ≤ (buf.length : Int) - (n : Int) + 1
    · rw [max_eq_right hc]
      omega
    · rw [max_eq_left (by omega)]
      omega
  · have h0 : buf.length + 1 - n = 0 := by omega
    simp [calculate_histogram_buf, windows, h0]

theorem calculate_histogram_buf_correct_witness :
    1 ≤ 2 ∧ hlookup [0, 0] (calculate_histogram_buf [0, 0, 1] 2) =
      (windows [0, 0, 1] 2).count [0, 0] :=
  ⟨by decide, (calculate_histogram_buf_correct [0, 0, 1] 2 (by decide)).1 [0, 0]⟩

/-- C10: the public histogram builder takes a file path and performs the read
itself: an unopenable or unreadable file makes it panic (modelled `none`), and
a readable file yields the histogram of the loaded buffer, so the
input-unavailable failure surfaces inside this operation rather than in a
separate loading collaborator. -/
theorem calculate_histogram_reads_file (fs : Nat → Option (List Nat))
    (file : Nat) (n : Nat) :
    (fs file = none → calculate_histogram fs file n = none) ∧
    (∀ buf, fs file = some buf →
      calculate_histogram fs file n = some (calculate_histogram_buf buf n)) := by
  constructor
  · intro h
    simp [calculate_histogram, h]
  · intro buf h
    simp [calculate_histogram, h]

theorem calculate_histogram_reads_file_witness :
    calculate_histogram (fun _ => none) 0 1 = none ∧
    calculate_histogram (fun _ => some [7]) 0 1 =
      some (calculate_histogram_buf [7] 1) :=
  ⟨(calculate_histogram_reads_file (fun _ => none) 0 1).1 rfl,
   (calculate_histogram_reads_file (fun _ => some [7]) 0 1).2 [7] rfl⟩

theorem count_le_histTotal {h : List (List Nat × Nat)} {kc : List Nat × Nat}
    (hm : kc ∈ h) : kc.2 ≤ histTotal h :=
  List.le_sum_of_mem (List.mem_map_of_mem (·.2) hm)

theorem list_sum_nonpos {l : List ℝ} (h : ∀ x ∈ l, x ≤ 0) : l.sum ≤ 0 := by
  induction l with
  | nil => simp
  | cons a t ih =>
    simp only [List.sum_cons]
    have ha := h a (List.mem_cons_self a t)
    have ht := ih fun x hx => h x (List.mem_cons_of_mem _ hx)
    linarith

theorem calculate_entropy_nonpos {c T : Nat} (hc : 0 < c) (hcT : c ≤ T) :
    calculate_entropy ((c : ℝ) / (T : ℝ)) ≤ 0 := by
  have hT : (0 : ℝ) < (T : ℝ) := by
    have : 0 < T := lt_of_lt_of_le hc hcT
    exact_mod_cast this
  have hp : (0 : ℝ) < (c : ℝ) / (T : ℝ) := div_pos (by exact_mod_cast hc) hT
  have hp1 : (c : ℝ) / (T : ℝ) ≤ 1 := (div_le_one hT).mpr (by exact_mod_cast hcT)
  have hlog : Real.logb 2 ((c : ℝ) / (T : ℝ)) ≤ 0 :=
    Real.logb_nonpos (by norm_num) hp.le hp1
  exact mul_nonpos_iff.mpr (Or.inr ⟨hlog, hp.le⟩)

theorem calculate_entropy_neg {c T : Nat} (hc : 0 < c) (hcT : c < T) :
    calculate_entropy ((c : ℝ) / (T : ℝ)) < 0 := by
  have hT : (0 : ℝ) < (T : ℝ) := by
    have : 0 < T := lt_trans hc hcT
    exact_mod_cast this
  have hp : (0 : ℝ) < (c : ℝ) / (T : ℝ) := div_pos (by exact_mod_cast hc) hT
  have hp1 : (c : ℝ) / (T : ℝ) < 1 := (div_lt_one hT).mpr (by exact_mod_cast hcT)
  have hlog : Real.logb 2 ((c : ℝ) / (T : ℝ)) < 0 :=
    Real.logb_neg (by norm_num) hp hp1
  exact mul_neg_of_neg_of_pos hlog hp

/-- C8: the entropy calculator returns 0 on the empty histogram: the sum over
no keys is 0 and its negation is 0; no division is executed, so no NaN can
arise on this input. -/
theorem calculate_entropy_histogram_nil : calculate_entropy_histogram [] = 0 := by
  simp [calculate_entropy_histogram]

/-- C7: the entropy of every histogram with positive counts is nonnegative,
and it is zero exactly when the histogram is empty or has a single distinct
key. -/
theorem calculate_entropy_histogram_nonneg_eq_zero_iff
    (h : List (List Nat × Nat)) (hpos : ∀ kc ∈ h, 0 < kc.2) :
    0 ≤ calculate_entropy_histogram h ∧
      (calculate_entropy_histogram h = 0 ↔ h.length ≤ 1) := by
  rcases h with _ | ⟨a, _ | ⟨b, t⟩⟩
  · simp [calculate_entropy_histogram]
  · have ha : 0 < a.2 := hpos a (by simp)
    have hp : ((a.2 : ℝ) / (histTotal [a] : ℝ)) = 1 := by
      have hT : histTotal [a] = a.2 := by simp [histTotal]
      rw [hT]
      exact div_self (by exact_mod_cast ha.ne')
    have hE : calculate_entropy_histogram [a] = 0 := by
      simp [calculate_entropy_histogram, hp, calculate_entropy, Real.logb_one]
    exact ⟨le_of_eq hE.symm, by simp [hE]⟩
  · have hca : 0 < a.2 := hpos a (by simp)
    have hcb : 0 < b.2 := hpos b (by simp)
    have hTa : a.2 < histTotal (a :: b :: t) := by
      simp only [histTotal, List.map_cons, List.sum_cons]
      omega
    have hterm : calculate_entropy ((a.2 : ℝ) / (histTotal (a :: b :: t) : ℝ)) < 0 :=
      calculate_entropy_neg hca hTa
    have hrestb : calculate_entropy ((b.2 : ℝ) / (histTotal (a :: b :: t) : ℝ)) ≤ 0 :=
      calculate_entropy_nonpos hcb (count_le_histTotal (by simp))
    have hrest : (t.map fun kc =>
        calculate_entropy ((kc.2 : ℝ) / (histTotal (a :: b :: t) : ℝ))).sum ≤ 0 := by
      apply list_sum_nonpos
      intro x hx
      obtain ⟨kc, hkc, rfl⟩ := List.mem_map.mp hx
      have hm : kc ∈ a :: b :: t :=
        List.mem_cons_of_mem _ (List.mem_cons_of_mem _ hkc)
      exact calculate_entropy_nonpos (hpos kc hm) (count_le_histTotal hm)
    have hE : 0 < calculate_entropy_histogram (a :: b :: t) := by
      simp only [calculate_entropy_histogram, List.map_cons, List.sum_cons]
      linarith
    refine ⟨le_of_lt hE, ?_, ?_⟩
    · intro h0
      rw [h0] at hE
      exact absurd hE (lt_irrefl 0)
    · intro hl
      exfalso
      simp only [List.length_cons] at hl
      omega

theorem calculate_entropy_histogram_nonneg_eq_zero_iff_witness :
    (∀ kc ∈ [([0], 1), ([1], 1)], 0 < kc.2) ∧
    (0 ≤ calculate_entropy_histogram [([0], 1), ([1], 1)] ∧
      (calculate_entropy_histogram [([0], 1), ([1], 1)] = 0 ↔
        List.length [([0], 1), ([1], 1)] ≤ 1)) :=
  ⟨by decide, calculate_entropy_histogram_nonneg_eq_zero_iff _ (by decide)⟩

theorem insertDesc_perm (x : List Nat × Nat) (l : List (List Nat × Nat)) :
    (insertDesc x l).Perm (x :: l) := by
  induction l with
  | nil => exact List.Perm.refl _
  | cons y ys ih =>
    by_cases hc : y.2 ≤ x.2
    · simp [insertDesc, hc]
    · simp only [insertDesc, if_neg hc]
      exact (List.Perm.cons y ih).trans (List.Perm.swap x y ys)

theorem sortDesc_perm (l : List (List Nat × Nat)) : (sortDesc l).Perm l := by
  induction l with
  | nil => exact List.Perm.refl _
  | cons x xs ih =>
    exact (insertDesc_perm x (sortDesc xs)).trans (List.Perm.cons x ih)

theorem insertDesc_sorted (a : List Nat × Nat) (l : List (List Nat × Nat))
    (hl : l.Pairwise fun u v => v.2 < u.2 ∨ (u.2 = v.2 ∧ keyLtb u.1 v.1 = true))
    (ha : ∀ y ∈ l, keyLtb a.1 y.1 = true) :
    (insertDesc a l).Pairwise fun u v =>
      v.2 < u.2 ∨ (u.2 = v.2 ∧ keyLtb u.1 v.1 = true) := by
  induction l with
  | nil => simp [insertDesc]
  | cons y ys ih =>
    rw [List.pairwise_cons] at hl
    obtain ⟨hy, hys⟩ := hl
    by_cases hc : y.2 ≤ a.2
    · simp only [insertDesc, if_pos hc]
      rw [List.pairwise_cons]
      refine ⟨?_, List.Pairwise.cons hy hys⟩
      intro z hz
      rcases List.mem_cons.mp hz with rfl | hz
      · rcases lt_or_eq_of_le hc with hlt | heq
        · exact Or.inl hlt
        · exact Or.inr ⟨heq.symm, ha z (List.mem_cons_self _ _)⟩
      · have hzy := hy z hz
        have hz2 : z.2 ≤ a.2 := by
          rcases hzy with hlt | ⟨heq, _⟩ <;> omega
        rcases lt_or_eq_of_le hz2 with hlt | heq
        · exact Or.inl hlt
        · exact Or.inr ⟨heq.symm, ha z (List.mem_cons_of_mem _ hz)⟩
    · simp only [insertDesc, if_neg hc]
      rw [List.pairwise_cons]
      refine ⟨?_, ih hys fun z hz => ha z (List.mem_cons_of_mem _ hz)⟩
      intro z hz
      have hmem : z = a ∨ z ∈ ys := by
        have hp := (insertDesc_perm a ys).mem_iff.mp hz
        simpa using hp
      rcases hmem with rfl | hz'
      · exact Or.inl (by omega)
      · exact hy z hz'

theorem sortDesc_sorted (l : List (List Nat × Nat)) (hl : HistSorted l) :
    (sortDesc l).Pairwise fun u v =>
      v.2 < u.2 ∨ (u.2 = v.2 ∧ keyLtb u.1 v.1 = true) := by
  induction l with
  | nil => simp [sortDesc]
  | cons x xs ih =>
    rw [HistSorted, List.pairwise_cons] at hl
    obtain ⟨hx, hxs⟩ := hl
    show (insertDesc x (sortDesc xs)).Pairwise _
    apply insertDesc_sorted
    · exact ih hxs
    · intro y hy
      exact hx y ((sortDesc_perm xs).mem_iff.mp hy)

theorem keyLtb_singleton {x y : Nat} : keyLtb [x] [y] = true ↔ x < y := by
  by_cases h : x < y
  · simp [keyLtb, h]
  · by_cases h2 : y < x <;> simp [keyLtb, h, h2]

theorem eq_singleton_of_length_one {l : List Nat} (h : l.length = 1) :
    ∃ x, l = [x] := by
  cases l with
  | nil => simp at h
  | cons a as =>
    cases as with
    | nil => exact ⟨a, rfl⟩
    | cons b bs =>
      exfalso
      simp only [List.length_cons] at h
      omega

/-- C6: on a length-1 histogram the frequency ranker returns all (byte, count)
pairs, sorted by count descending with equal counts in ascending byte order,
and it is deterministic: ranking the same histogram twice yields the same
output. -/
theorem get_most_frequent_bytes_correct (h : List (List Nat × Nat))
    (hs : HistSorted h) (hlen : ∀ kc ∈ h, kc.1.length = 1) :
    (get_most_frequent_bytes h).Perm h ∧
    ((get_most_frequent_bytes h).Pairwise fun u v =>
      v.2 < u.2 ∨ (u.2 = v.2 ∧ ∃ x y, u.1 = [x] ∧ v.1 = [y] ∧ x < y)) ∧
    get_most_frequent_bytes h = get_most_frequent_bytes h := by
  refine ⟨sortDesc_perm h, ?_, rfl⟩
  have hsor := sortDesc_sorted h hs
  have hmem : ∀ kc ∈ sortDesc h, kc.1.length = 1 :=
    fun kc hkc => hlen kc ((sortDesc_perm h).mem_iff.mp hkc)
  refine List.Pairwise.imp_of_mem ?_ hsor
  intro u v hu hv huv
  rcases huv with h1 | ⟨h1, h2⟩
  · exact Or.inl h1
  · refine Or.inr ⟨h1, ?_⟩
    obtain ⟨x, hx⟩ := eq_singleton_of_length_one (hmem u hu)
    obtain ⟨y, hy⟩ := eq_singleton_of_length_one (hmem v hv)
    rw [hx, hy] at h2
    exact ⟨x, y, hx, hy, keyLtb_singleton.mp h2⟩

theorem get_most_frequent_bytes_correct_witness :
    HistSorted [([65], 3), ([66], 3), ([67], 1)] ∧
    (get_most_frequent_bytes [([65], 3), ([66], 3), ([67], 1)]).Perm
      [([65], 3), ([66], 3), ([67], 1)] :=
  ⟨by rw [HistSorted]; decide,
   (get_most_frequent_bytes_correct _ (by rw [HistSorted]; decide) (by decide)).1⟩

/-- C5 fails on the code: `get_most_frequent_bytes` accepts no count
parameter, so the truncating (`some k`) behavior of the spec interface is not
implemented — at `k = 1` the source output keeps both entries of this
two-entry histogram while the spec interface keeps one. -/
theorem get_most_frequent_bytes_no_count_param :
    get_most_frequent_bytes [([0], 1), ([1], 2)] ≠
      rank_frequencies_spec [([0], 1), ([1], 2)] (some 1) := by decide

/-- C5 amended: the ranking operation takes no count parameter and always
returns every distinct byte present (a permutation of the histogram, same
length, equal to the `none` branch of the spec interface); no truncation and
no padding ever happens. -/
theorem get_most_frequent_bytes_returns_all (h : List (List Nat × Nat)) :
    (get_most_frequent_bytes h).Perm h ∧
    (get_most_frequent_bytes h).length = h.length ∧
    get_most_frequent_bytes h = rank_frequencies_spec h none :=
  ⟨sortDesc_perm h, (sortDesc_perm h).length_eq, rfl⟩

theorem eq_pair_of_length_two {l : List Nat} (h : l.length = 2) :
    ∃ a b, l = [a, b] := by
  cases l with
  | nil => exfalso; simp only [List.length_nil] at h; omega
  | cons a as =>
    cases as with
    | nil => exfalso; simp only [List.length_cons, List.length_nil] at h; omega
    | cons b bs =>
      cases bs with
      | nil => exact ⟨a, b, rfl⟩
      | cons c cs =>
        exfalso
        simp only [List.length_cons] at h
        omega

theorem foldl_putPixel_not_mem (f : List Nat × Nat → Nat)
    (l : List (List Nat × Nat)) :
    ∀ (img : Nat × Nat → Nat) (p : Nat × Nat),
      (∀ kc ∈ l, (kc.1.headD 0, kc.1.tail.headD 0) ≠ p) →
      l.foldl (fun image kc =>
        putPixel image (kc.1.headD 0) (kc.1.tail.headD 0) (f kc)) img p = img p := by
  induction l with
  | nil => intro img p _; rfl
  | cons kc rest ih =>
    intro img p hn
    simp only [List.foldl_cons]
    rw [ih _ p fun z hz => hn z (List.mem_cons_of_mem _ hz)]
    simp only [putPixel]
    rw [if_neg]
    intro hp
    exact hn kc (List.mem_cons_self _ _) hp.symm

theorem foldl_putPixel_mem (f : List Nat × Nat → Nat)
    (l : List (List Nat × Nat)) :
    ∀ (img : Nat × Nat → Nat) (x y c : Nat),
      ([x, y], c) ∈ l →
      (∀ kc ∈ l, kc.1.length = 2) →
      l.Pairwise (fun u v => u.1 ≠ v.1) →
      l.foldl (fun image kc =>
        putPixel image (kc.1.headD 0) (kc.1.tail.headD 0) (f kc)) img (x, y) =
        f ([x, y], c) := by
  induction l with
  | nil =>
    intro img x y c hm _ _
    exact absurd hm (List.not_mem_nil _)
  | cons kc rest ih =>
    intro img x y c hm hlen hdist
    rw [List.pairwise_cons] at hdist
    obtain ⟨hdk, hdr⟩ := hdist
    rcases List.mem_cons.mp hm with heq | hm'
    · subst heq
      have hne : ∀ z ∈ rest, (z.1.headD 0, z.1.tail.headD 0) ≠ (x, y) := by
        intro z hz hp
        obtain ⟨a, b, hab⟩ :=
          eq_pair_of_length_two (hlen z (List.mem_cons_of_mem _ hz))
        rw [hab] at hp
        simp only [List.headD_cons, List.tail_cons, Prod.mk.injEq] at hp
        exact hdk z hz (by rw [hab, hp.1, hp.2])
      simp only [List.foldl_cons]
      rw [foldl_putPixel_not_mem f rest _ _ hne]
      simp [putPixel]
    · simp only [List.foldl_cons]
      exact ih _ x y c hm' (fun z hz => hlen z (List.mem_cons_of_mem _ hz)) hdr

theorem mem_of_hlookup_pos {k : List Nat} {h : List (List Nat × Nat)} {c : Nat}
    (hl : hlookup k h = c) (hc : 0 < c) : (k, c) ∈ h := by
  induction h with
  | nil =>
    exfalso
    simp [hlookup] at hl
    omega
  | cons kc rest ih =>
    obtain ⟨k', c'⟩ := kc
    by_cases hk : k = k'
    · subst hk
      simp only [hlookup, if_pos rfl] at hl
      subst hl
      exact List.mem_cons_self _ _
    · simp only [hlookup, if_neg hk] at hl
      exact List.mem_cons_of_mem _ (ih hl)

theorem hlookup_pos_of_mem {k : List Nat} {h : List (List Nat × Nat)}
    (hpos : ∀ kc ∈ h, 0 < kc.2) {kc : List Nat × Nat} (hm : kc ∈ h)
    (hk : kc.1 = k) : 0 < hlookup k h := by
  induction h with
  | nil => exact absurd hm (List.not_mem_nil _)
  | cons a rest ih =>
    obtain ⟨k', c'⟩ := a
    by_cases hkk : k = k'
    · simp only [hlookup, if_pos hkk]
      exact hpos (k', c') (List.mem_cons_self _ _)
    · simp only [hlookup, if_neg hkk]
      rcases List.mem_cons.mp hm with rfl | hm'
      · exact absurd hk (fun hh => hkk hh.symm)
      · exact ih (fun z hz => hpos z (List.mem_cons_of_mem _ hz)) hm'

theorem coords_ne_of_hlookup_zero {x y : Nat} {h : List (List Nat × Nat)}
    (h0 : hlookup [x, y] h = 0) (hpos : ∀ kc ∈ h, 0 < kc.2)
    (hlen : ∀ kc ∈ h, kc.1.length = 2) :
    ∀ kc ∈ h, (kc.1.headD 0, kc.1.tail.headD 0) ≠ (x, y) := by
  intro kc hm hp
  obtain ⟨a, b, hab⟩ := eq_pair_of_length_two (hlen kc hm)
  rw [hab] at hp
  simp only [List.headD_cons, List.tail_cons, Prod.mk.injEq] at hp
  have hkey : kc.1 = [x, y] := by rw [hab, hp.1, hp.2]
  have := hlookup_pos_of_mem hpos hm hkey
  omega

/-- C1 fails on the code: rasterizing the empty pair histogram computes
`avg_total = total as f64 / len as f64 = 0.0 / 0.0`, which is IEEE NaN
(modelled `none`), so the reported average is not 0. -/
theorem generate_image_empty_avg_not_zero :
    (generate_image []).2.2 ≠ some 0 := by
  simp [generate_image]

/-- C1 amended: rasterizing the empty pair histogram yields the all-zero
256×256 raster and `total = 0`, but the reported average is the NaN produced
by `0.0 / 0.0` (modelled `none`), not 0. -/
theorem generate_image_empty :
    (∀ p, (generate_image []).1 p = 0) ∧
    (generate_image []).2.1 = 0 ∧
    (generate_image []).2.2 = none :=
  ⟨fun _ => rfl, rfl, rfl⟩

/-- C9 amended: for every nonempty sorted length-2 byte histogram with
positive counts and average `A = total / len`, each observed key `[x, y]`
with count `c` receives pixel value
`min 65535 ⌊c / A * 65535⌋` — the saturating truncation performed by the Rust
cast `as u16` (truncation, not rounding; counts well above average clip at
65535) — and every unobserved coordinate keeps the zero-initialised value. -/
theorem generate_image_pixels (h : List (List Nat × Nat)) (hs : HistSorted h)
    (hshape : ∀ kc ∈ h, kc.1.length = 2 ∧ 0 < kc.2 ∧ ∀ b ∈ kc.1, b < 256)
    (hne : h ≠ []) :
    (∀ x y c, hlookup [x, y] h = c → 0 < c →
      (generate_image h).1 (x, y) =
        u16sat ((c : ℚ) / ((histTotal h : ℚ) / (h.length : ℚ)) * 65535)) ∧
    (∀ x y, hlookup [x, y] h = 0 → (generate_image h).1 (x, y) = 0) := by
  have hlen2 : ∀ kc ∈ h, kc.1.length = 2 := fun kc hm => (hshape kc hm).1
  have hpos : ∀ kc ∈ h, 0 < kc.2 := fun kc hm => (hshape kc hm).2.1
  have hdist : h.Pairwise fun u v => u.1 ≠ v.1 :=
    List.Pairwise.imp (fun huv => ne_of_keyLtb huv) hs
  constructor
  · intro x y c hlk hc
    have hm : ([x, y], c) ∈ h := mem_of_hlookup_pos hlk hc
    simp only [generate_image]
    exact foldl_putPixel_mem _ h (fun _ => 0) x y c hm hlen2 hdist
  · intro x y h0
    simp only [generate_image]
    exact foldl_putPixel_not_mem _ h (fun _ => 0) (x, y)
      (coords_ne_of_hlookup_zero h0 hpos hlen2)

theorem generate_image_pixels_witness :
    (generate_image [([0, 0], 1)]).1 (0, 0) =
      u16sat ((1 : ℚ) / ((histTotal [([0, 0], 1)] : ℚ) /
        (List.length [([0, 0], 1)] : ℚ)) * 65535) :=
  (generate_image_pixels [([0, 0], 1)] (by rw [HistSorted]; decide) (by decide)
    (by decide)).1 0 0 1 (by decide) (by decide)

/-- C9 as stated fails on the code: the brightness cast is the truncation
`as u16`, not rounding.  For the pair histogram with counts 1, 2, 2, 2 the
average is 7/4 and the key `[0, 0]` (count 1) receives
`⌊262140 / 7⌋ = 37448`, while the rounding the claim states would give
37449. -/
theorem generate_image_not_round :
    ((generate_image [([0, 0], 1), ([0, 1], 2), ([1, 0], 2), ([1, 1], 2)]).1
        (0, 0) : Int) ≠
      round ((1 : ℚ) /
        ((histTotal [([0, 0], 1), ([0, 1], 2), ([1, 0], 2), ([1, 1], 2)] : ℚ) /
          (List.length [([0, 0], 1), ([0, 1], 2), ([1, 0], 2), ([1, 1], 2)] : ℚ))
        * 65535) := by
  have hf : ⌊(262140 : ℚ) / 7⌋₊ = 37448 := by
    rw [Nat.floor_eq_iff (by positivity)]
    norm_num
  have hpix : (generate_image
      [([0, 0], 1), ([0, 1], 2), ([1, 0], 2), ([1, 1], 2)]).1 (0, 0) = 37448 := by
    simp [generate_image, histTotal, putPixel, u16sat, -Prod.mk_zero_zero]
    rw [show (4 : ℚ) / 7 * 65535 = 262140 / 7 by norm_num, hf]
    norm_num
  have hexp : (1 : ℚ) /
      ((histTotal [([0, 0], 1), ([0, 1], 2), ([1, 0], 2), ([1, 1], 2)] : ℚ) /
        (List.length [([0, 0], 1), ([0, 1], 2), ([1, 0], 2), ([1, 1], 2)] : ℚ))
      * 65535 = (262140 : ℚ) / 7 := by
    simp [histTotal]
    norm_num
  have hrd : round ((262140 : ℚ) / 7) = 37449 := by
    rw [round_eq, Int.floor_eq_iff]
    norm_num
  rw [hpix, hexp, hrd]
  norm_num

/-- C2 states the intended design (and the code comment at lib.rs line 122
agrees), but the code writes `Rgb([brightness_1, 0, brightness_2])`: the
remaining (green, presence) channel of every observed pixel is 0, not a fixed
non-zero value.  At the length-3 histogram `{[0,0,0] ↦ 1}` the observed pixel
(0, 0) is `(0, 0, 65535)`, whose presence channel equals the unobserved
black value. -/
theorem generate_color_image_green_channel_zero :
    (generate_color_image [([0, 0, 0], 1)]).1 (0, 0) = (0, 0, 65535) := by
  simp [generate_color_image, histTotal, u16sat]

/-- C3 fails on the code: `full_analysis` reads every file through
`calculate_histogram` and `.expect` panics abort the whole process, so a
failure on one file ends the batch.  Here file 0 is unreadable and the
readable file 2 that follows it is never analyzed. -/
theorem full_analysis_aborts_on_failure :
    ¬ ∃ r, (2, r) ∈
      full_analysis (fun n => if n = 0 then none else some []) [0, 2] := by
  intro hex
  obtain ⟨r, hr⟩ := hex
  simp [full_analysis] at hr

/-- C3 amended: a failure while processing one file aborts the whole batch:
after any prefix of readable files, an unreadable file stops `full_analysis`
right there and none of the remaining files is analyzed. -/
theorem full_analysis_stops_at_first_failure
    (fs : Nat → Option (List Nat)) (xs : List Nat) (f : Nat) (ys : List Nat)
    (hxs : ∀ x ∈ xs, (fs x).isSome = true) (hf : fs f = none) :
    full_analysis fs (xs ++ f :: ys) = full_analysis fs xs := by
  induction xs with
  | nil =>
    simp only [List.nil_append]
    simp [full_analysis, hf]
  | cons x xs ih =>
    have hx : (fs x).isSome = true := hxs x (List.mem_cons_self _ _)
    obtain ⟨buf, hbuf⟩ := Option.isSome_iff_exists.mp hx
    simp only [List.cons_append]
    simp only [full_analysis, hbuf]
    rw [ih fun z hz => hxs z (List.mem_cons_of_mem _ hz)]

theorem full_analysis_stops_at_first_failure_witness :
    full_analysis (fun n => if n = 0 then none else some []) [1, 0, 2] =
      full_analysis (fun n => if n = 0 then none else some []) [1] :=
  full_analysis_stops_at_first_failure _ [1] 0 [2] (by decide) (by rfl)
